import Mathlib

/-!
Verification of the message-assembly and part-decoding core of the
imap wrapper library.

The development shallowly embeds:
* the part decoder of ImapSimple.getPartData (src/imapSimple.ts),
* the message assembler getMessage, in both its variants
  (src/helpers/getMessage.ts, and the legacy variant whose header
  regex is hoisted into a shared stateful value),
* the getParts flattening of a BODYSTRUCTURE tree (src/index.ts).

External npm capabilities used by the decoder (quoted-printable, utf8,
uuencode, iconv-lite, base64 via Buffer) are not part of this repository;
they are modelled from the spec as concrete executable functions, each
marked in its doc comment.
-/

/-! ## Modelled external decoding capabilities -/

/-- Test for an ASCII hexadecimal digit, as matched by the character class
of the quoted-printable escape pattern. -/
def isHexDigit (c : Char) : Bool :=
  ('0' ≤ c && c ≤ '9') || ('a' ≤ c && c ≤ 'f') || ('A' ≤ c && c ≤ 'F')

/-- Numeric value of an ASCII hexadecimal digit. -/
def hexVal (c : Char) : Nat :=
  if '0' ≤ c && c ≤ '9' then c.toNat - '0'.toNat
  else if 'a' ≤ c && c ≤ 'f' then c.toNat - 'a'.toNat + 10
  else if 'A' ≤ c && c ≤ 'F' then c.toNat - 'A'.toNat + 10
  else 0

/-- Modelled from the spec: first pass of the external quoted-printable
decode, removing soft line breaks (an equals sign followed by CR LF, CR,
LF, or the end of the input). -/
def qpStripSoftBreaks : List Char → List Char
  | [] => []
  | '=' :: '\r' :: '\n' :: rest => qpStripSoftBreaks rest
  | '=' :: '\r' :: rest => qpStripSoftBreaks rest
  | '=' :: '\n' :: rest => qpStripSoftBreaks rest
  | ['='] => []
  | c :: rest => c :: qpStripSoftBreaks rest

/-- Modelled from the spec: second pass of the external quoted-printable
decode, replacing an equals sign followed by two hex digits with the byte
of that value; an equals sign not followed by two hex digits is kept. -/
def qpDecodeHex : List Char → List Char
  | '=' :: a :: b :: rest =>
      if isHexDigit a && isHexDigit b then
        Char.ofNat (hexVal a * 16 + hexVal b) :: qpDecodeHex rest
      else
        '=' :: qpDecodeHex (a :: b :: rest)
  | c :: rest => c :: qpDecodeHex rest
  | [] => []

/-- Modelled from the spec: the external quoted-printable decode
(npm package quoted-printable), yielding a byte string whose characters
are the decoded byte values. -/
def qpDecode (s : String) : String :=
  String.mk (qpDecodeHex (qpStripSoftBreaks s.data))

/-- Value of a character of the standard base64 alphabet; characters
outside the alphabet (including padding) are skipped by the decoder. -/
def b64Val (c : Char) : Option Nat :=
  if 'A' ≤ c && c ≤ 'Z' then some (c.toNat - 'A'.toNat)
  else if 'a' ≤ c && c ≤ 'z' then some (c.toNat - 'a'.toNat + 26)
  else if '0' ≤ c && c ≤ '9' then some (c.toNat - '0'.toNat + 52)
  else if c = '+' then some 62
  else if c = '/' then some 63
  else none

/-- Regroup 6-bit base64 values into 8-bit bytes, four values to three
bytes, with the usual handling of a trailing group of two or three. -/
def b64Chunks : List Nat → List Nat
  | a :: b :: c :: d :: rest =>
      (a * 4 + b / 16) :: ((b % 16) * 16 + c / 4) :: ((c % 4) * 64 + d) :: b64Chunks rest
  | [a, b, c] => [a * 4 + b / 16, (b % 16) * 16 + c / 4]
  | [a, b] => [a * 4 + b / 16]
  | _ => []

/-- Modelled from the spec: the external base64 decode used for the
BASE64 branch (Buffer in base64 mode), producing raw bytes. -/
def base64Decode (s : String) : List Nat :=
  b64Chunks (s.data.filterMap b64Val)

/-- UTF-8 encoding of a single unicode scalar value. -/
def utf8EncodeChar (c : Char) : List Nat :=
  let n := c.toNat
  if n < 128 then [n]
  else if n < 2048 then [192 + n / 64, 128 + n % 64]
  else if n < 65536 then [224 + n / 4096, 128 + n / 64 % 64, 128 + n % 64]
  else [240 + n / 262144, 128 + n / 4096 % 64, 128 + n / 64 % 64, 128 + n % 64]

/-- UTF-8 encoding of a string as a byte list (a Buffer built from a
string with the default encoding). -/
def utf8Bytes (s : String) : List Nat :=
  (s.data.map utf8EncodeChar).flatten

/-- The unicode replacement character, produced for malformed byte
sequences by the total model of UTF-8 decoding. -/
def replacementChar : Char := Char.ofNat 0xFFFD

/-- Test for a UTF-8 continuation byte. -/
def isCont (b : Nat) : Bool := 128 ≤ b && b < 192

/-- Total UTF-8 decoding of a byte list into characters; malformed
sequences yield the replacement character. The fuel argument only makes
the recursion structural; every step consumes at least one byte, so a
fuel of the list length never runs out. -/
def utf8DecodeAux : Nat → List Nat → List Char
  | 0, _ => []
  | _ + 1, [] => []
  | fuel + 1, b :: rest =>
    if b < 128 then Char.ofNat b :: utf8DecodeAux fuel rest
    else if b < 194 then replacementChar :: utf8DecodeAux fuel rest
    else if b < 224 then
      match rest with
      | c1 :: rest1 =>
        if isCont c1 then
          Char.ofNat ((b - 192) * 64 + (c1 - 128)) :: utf8DecodeAux fuel rest1
        else replacementChar :: utf8DecodeAux fuel (c1 :: rest1)
      | [] => [replacementChar]
    else if b < 240 then
      match rest with
      | c1 :: c2 :: rest2 =>
        if isCont c1 && isCont c2 then
          (if 55296 ≤ (b - 224) * 4096 + (c1 - 128) * 64 + (c2 - 128) &&
              (b - 224) * 4096 + (c1 - 128) * 64 + (c2 - 128) < 57344 ||
              (b - 224) * 4096 + (c1 - 128) * 64 + (c2 - 128) < 2048 then
            replacementChar
           else Char.ofNat ((b - 224) * 4096 + (c1 - 128) * 64 + (c2 - 128)))
            :: utf8DecodeAux fuel rest2
        else replacementChar :: utf8DecodeAux fuel (c1 :: c2 :: rest2)
      | _ => [replacementChar]
    else if b < 245 then
      match rest with
      | c1 :: c2 :: c3 :: rest3 =>
        if isCont c1 && isCont c2 && isCont c3 then
          (if (b - 240) * 262144 + (c1 - 128) * 4096 + (c2 - 128) * 64 + (c3 - 128) < 65536 ||
              1114111 < (b - 240) * 262144 + (c1 - 128) * 4096 + (c2 - 128) * 64 + (c3 - 128) then
            replacementChar
           else Char.ofNat ((b - 240) * 262144 + (c1 - 128) * 4096 + (c2 - 128) * 64 + (c3 - 128)))
            :: utf8DecodeAux fuel rest3
        else replacementChar :: utf8DecodeAux fuel (c1 :: c2 :: c3 :: rest3)
      | _ => [replacementChar]
    else replacementChar :: utf8DecodeAux fuel rest

/-- UTF-8 decoding of a byte list into a string. -/
def utf8DecodeBytes (bs : List Nat) : String :=
  String.mk (utf8DecodeAux bs.length bs)

/-- Modelled from the spec: the external utf8-package decode, which
reinterprets a byte string (characters standing for byte values) as
UTF-8 text. -/
def utf8Decode (s : String) : String :=
  utf8DecodeBytes (s.data.map Char.toNat)

/-- Node ascii decoding of a byte list: each byte with its high bit
stripped becomes one character. -/
def asciiDecodeBytes (bs : List Nat) : String :=
  String.mk (bs.map (fun b => Char.ofNat (b % 128)))

/-- Modelled from the spec: the external generic charset-conversion
capability (iconv-lite). Only the utf-8 family is modelled; the charset
argument selects no other table here, as no verified property depends on
the converted value for other charsets. -/
def iconvliteDecode (bs : List Nat) (_charset : String) : String :=
  utf8DecodeBytes bs

/-- Regroup 6-bit uuencode values into 8-bit bytes. -/
def uuChunks : List Nat → List Nat
  | a :: b :: c :: d :: rest =>
      (a * 4 + b / 16) :: ((b % 16) * 16 + c / 4) :: ((c % 4) * 64 + d) :: uuChunks rest
  | [a, b, c] => [a * 4 + b / 16, (b % 16) * 16 + c / 4]
  | [a, b] => [a * 4 + b / 16]
  | _ => []

/-- Modelled from the spec: the external uuencode payload decoding,
mapping each character to its 6-bit value and regrouping into bytes. -/
def uuDecode (s : String) : String :=
  utf8DecodeBytes (uuChunks (s.data.map (fun c => (c.toNat - 32) % 64)))

/-- Model of the JS toUpperCase call on encoding and charset names
(ASCII uppercasing, character by character). -/
def strToUpper (s : String) : String := String.mk (s.data.map Char.toUpper)

/-- Split a character list on a separator character, keeping empty
pieces, as the JS split does. -/
def splitOnCharList (c : Char) : List Char → List (List Char)
  | [] => [[]]
  | x :: rest =>
      match splitOnCharList c rest with
      | [] => [[]]
      | grp :: gs => if x == c then [] :: grp :: gs else (x :: grp) :: gs

/-- Model of the JS split on the newline character. -/
def splitNewline (s : String) : List String :=
  (splitOnCharList '\n' s.data).map String.mk

/-! ## Part decoder (ImapSimple.getPartData) -/

/-- The params object of a MIME structure node, carrying an optional
charset. -/
structure DescriptorParams where
  charset : Option String
deriving DecidableEq

/-- One entry of a message MIME structure tree, as consumed by
getPartData: a section path, a declared transfer encoding, and optional
params. -/
structure PartDescriptor where
  partID : String
  encoding : String
  params : Option DescriptorParams
deriving DecidableEq

/-- The optional charset reached through the optional params object
(the source reads part.params?.charset). -/
def descCharset (part : PartDescriptor) : Option String :=
  part.params.bind DescriptorParams.charset

/-- The charset test of the QUOTED-PRINTABLE branch: the charset is
present, truthy, and its uppercase form is UTF-8. -/
def charsetIsUtf8 (part : PartDescriptor) : Bool :=
  match descCharset part with
  | some c => !(c == "") && (strToUpper c == "UTF-8")
  | none => false

/-- The charset of the 8BIT and BINARY branch: the declared charset when
truthy, the utf-8 default otherwise. -/
def charsetOrDefault (part : PartDescriptor) : String :=
  match descCharset part with
  | some c => if c == "" then "utf-8" else c
  | none => "utf-8"

/-- The two error kinds of the part decoder. -/
inductive DecodeError where
  | arity (count : Nat)
  | unsupported (encoding : String)
deriving DecidableEq

/-- Rendering of a decode error as the message text built by the source. -/
def decodeErrorMessage : DecodeError → String
  | DecodeError.arity n => "Got " ++ toString n ++ " parts, should get 1"
  | DecodeError.unsupported e => "Unknown encoding " ++ e

/-- The decoded representation of a part: a binary buffer of bytes, or
text. -/
inductive PartData where
  | buf (bytes : List Nat)
  | text (s : String)
deriving DecidableEq

/-- The decoding core of ImapSimple.getPartData: given the raw bodies of
the parts produced by the assembler for the single-part fetch, and the
descriptor of the requested part, produce the decoded data or an error.
Mirrors the source: the arity check comes first, then the branch on the
uppercased declared encoding. -/
def getPartData (rawParts : List String) (part : PartDescriptor) :
    Except DecodeError PartData :=
  match rawParts with
  | [data] =>
    if strToUpper part.encoding = "BASE64" then
      Except.ok (PartData.buf (base64Decode data))
    else if strToUpper part.encoding = "QUOTED-PRINTABLE" then
      if charsetIsUtf8 part then
        Except.ok (PartData.text (utf8Decode (qpDecode data)))
      else
        Except.ok (PartData.text (qpDecode data))
    else if strToUpper part.encoding = "7BIT" then
      Except.ok (PartData.text (asciiDecodeBytes (utf8Bytes data)))
    else if strToUpper part.encoding = "8BIT" ∨ strToUpper part.encoding = "BINARY" then
      Except.ok (PartData.text (iconvliteDecode (utf8Bytes data) (charsetOrDefault part)))
    else if strToUpper part.encoding = "UUENCODE" then
      Except.ok (PartData.text (uuDecode
        (String.join (((splitNewline data).drop 1).take ((splitNewline data).length - 4)))))
    else
      Except.error (DecodeError.unsupported part.encoding)
  | other => Except.error (DecodeError.arity other.length)

/-- The set of transfer encodings the decoder supports. -/
def supportedEncodings : List String :=
  ["BASE64", "QUOTED-PRINTABLE", "7BIT", "8BIT", "BINARY", "UUENCODE"]

/-! ## Message assembler (getMessage) -/

/-- The structured header mapping: field name to ordered list of values.
The parser producing it is an external capability of the imap library;
the assembler is parameterised over it. -/
abbrev HeaderMap := List (String × List String)

/-- Stored body of an assembled part: the raw accumulated string, or the
structured header mapping. -/
inductive PartBody where
  | raw (s : String)
  | header (fields : HeaderMap)
deriving DecidableEq

/-- One assembled body section. -/
structure MsgPart where
  which : String
  size : Nat
  body : PartBody
deriving DecidableEq

/-- The assembled message: the recorded attributes payload (absent when
no attributes event fired) and the parts in completion order. -/
structure MessageRec (α : Type) where
  attributes : Option α
  parts : List MsgPart
deriving DecidableEq

/-- One event delivered by the per-message event source: a body event
carrying the section info and the fully drained content, the attributes
event, or the terminal end event. -/
inductive MsgEvent (α : Type) where
  | body (which : String) (size : Nat) (content : String)
  | attributes (attrs : α)
  | ended
deriving DecidableEq

/-- The header-class test of the assembler: the which value starts with
HEADER (case-sensitive). -/
def isHeaderWhich (which : String) : Bool :=
  "HEADER".data.isPrefixOf which.data

/-- State of one assembly operation: recorded attributes, parts pushed so
far, which listeners are still attached (the attributes and end listeners
are once-listeners; the end handler removes the body and attributes
listeners), and the resolved message once the promise has resolved. -/
structure AsmState (α : Type) where
  attributes : Option α
  parts : List MsgPart
  attrOn : Bool
  bodyOn : Bool
  endOn : Bool
  resolvedMsg : Option (MessageRec α)
deriving DecidableEq

/-- The assembly state at the start of getMessage. -/
def initState {α : Type} : AsmState α :=
  { attributes := none, parts := [], attrOn := true, bodyOn := true,
    endOn := true, resolvedMsg := none }

/-- One event step of getMessage (src/helpers/getMessage.ts). The header
regex literal there is evaluated afresh at each body completion, so the
header test is stateless. -/
def getMessageStep {α : Type} (parseHeader : String → HeaderMap)
    (s : AsmState α) : MsgEvent α → AsmState α
  | MsgEvent.body which size content =>
      if s.bodyOn then
        { s with parts := s.parts ++
            [{ which := which, size := size,
               body := if isHeaderWhich which then PartBody.header (parseHeader content)
                       else PartBody.raw content }] }
      else s
  | MsgEvent.attributes a =>
      if s.attrOn then { s with attributes := some a, attrOn := false } else s
  | MsgEvent.ended =>
      if s.endOn then
        { s with attrOn := false, bodyOn := false, endOn := false,
                 resolvedMsg := some { attributes := s.attributes, parts := s.parts } }
      else s

/-- Run getMessage over a whole event sequence. -/
def getMessageRun {α : Type} (parseHeader : String → HeaderMap)
    (evs : List (MsgEvent α)) : AsmState α :=
  evs.foldl (getMessageStep parseHeader) initState

/-- State of the legacy assembler variant, which hoists the header regex
(with the global flag) into one shared value per message: the lastIndex
of that regex is part of the state. -/
structure AsmStateL (α : Type) where
  attributes : Option α
  parts : List MsgPart
  lastIndex : Nat
  attrOn : Bool
  bodyOn : Bool
  endOn : Bool
  resolvedMsg : Option (MessageRec α)
deriving DecidableEq

/-- The legacy assembly state at the start of getMessage. -/
def initStateL {α : Type} : AsmStateL α :=
  { attributes := none, parts := [], lastIndex := 0, attrOn := true,
    bodyOn := true, endOn := true, resolvedMsg := none }

/-- One event step of the legacy getMessage variant. Its header test runs
the shared regex with the global flag: a test starting at lastIndex 0
matches exactly when which starts with HEADER and then advances lastIndex
to 6 (the match end); a test starting at a nonzero lastIndex cannot match
the anchored pattern and resets lastIndex to 0. -/
def getMessageLegacyStep {α : Type} (parseHeader : String → HeaderMap)
    (s : AsmStateL α) : MsgEvent α → AsmStateL α
  | MsgEvent.body which size content =>
      if s.bodyOn then
        { s with
            lastIndex := if s.lastIndex == 0 && isHeaderWhich which then 6 else 0,
            parts := s.parts ++
              [{ which := which, size := size,
                 body := if s.lastIndex == 0 && isHeaderWhich which then
                           PartBody.header (parseHeader content)
                         else PartBody.raw content }] }
      else s
  | MsgEvent.attributes a =>
      if s.attrOn then { s with attributes := some a, attrOn := false } else s
  | MsgEvent.ended =>
      if s.endOn then
        { s with attrOn := false, bodyOn := false, endOn := false,
                 resolvedMsg := some { attributes := s.attributes, parts := s.parts } }
      else s

/-- Run the legacy getMessage variant over a whole event sequence. -/
def getMessageLegacyRun {α : Type} (parseHeader : String → HeaderMap)
    (evs : List (MsgEvent α)) : AsmStateL α :=
  evs.foldl (getMessageLegacyStep parseHeader) initStateL

/-! ## Structure tree flattening (getParts) -/

/-- One element of a BODYSTRUCTURE tree: a non-array node with its
optional partID and an identifying payload tag, or a nested array. -/
inductive StructItem where
  | leaf (partID : Option String) (tag : Nat)
  | branch (children : List StructItem)

/-- Truthiness of the partID field: present and not the empty string. -/
def truthyPartID : Option String → Bool
  | none => false
  | some s => !(s == "")

/-- The getParts walk of src/index.ts: scan the array left to right,
recurse into nested arrays sharing the accumulator, and push each node
with a truthy partID. -/
def getParts : List StructItem → List StructItem → List StructItem
  | [], acc => acc
  | StructItem.branch children :: rest, acc => getParts rest (getParts children acc)
  | StructItem.leaf pid tag :: rest, acc =>
      getParts rest (if truthyPartID pid then acc ++ [StructItem.leaf pid tag] else acc)

/-- Depth-first left-to-right flattening of a structure tree, keeping
exactly the non-array nodes with a truthy partID, stated the way the
claim words it; compared against getParts. -/
def flattenDFS : List StructItem → List StructItem
  | [] => []
  | StructItem.branch children :: rest => flattenDFS children ++ flattenDFS rest
  | StructItem.leaf pid tag :: rest =>
      (if truthyPartID pid then [StructItem.leaf pid tag] else []) ++ flattenDFS rest

/-- A state in which the end listener has been consumed has already
resolved: the once-registered end handler resolves as it runs. -/
def endPending {α : Type} (s : AsmState α) : Prop :=
  s.endOn = false → s.resolvedMsg.isSome = true

/-- A resolved state listens no further: the end handler removed the body
and attributes listeners and consumed the once end listener. -/
def listenersOff {α : Type} (s : AsmState α) : Prop :=
  s.resolvedMsg.isSome = true → s.bodyOn = false ∧ s.attrOn = false ∧ s.endOn = false

/-! ## Theorems: part decoder -/

/-- Dropping the last element three times is taking all but the final
three. -/
theorem dropLast_three_eq_take (xs : List String) :
    xs.dropLast.dropLast.dropLast = xs.take (xs.length - 3) := by
  simp only [List.dropLast_eq_take, List.length_take, List.take_take]
  congr 1
  omega

/-- The splice of the UUENCODE branch, keeping elements one through
length minus four, equals dropping the first line and the final three. -/
theorem trimUu_eq_take (l : List String) :
    l.tail.dropLast.dropLast.dropLast = l.tail.take (l.length - 4) := by
  rw [dropLast_three_eq_take]
  congr 1
  simp only [List.length_tail]
  omega

/-- C2: when the assembler produced a part count other than exactly one,
getPartData fails with the arity error carrying the actual count, before
any decoding; when the count is exactly one, no arity error is possible,
whatever the declared encoding. -/
theorem getPartData_arity (rawParts : List String) (desc : PartDescriptor) :
    (rawParts.length ≠ 1 →
        getPartData rawParts desc = Except.error (DecodeError.arity rawParts.length)) ∧
    (rawParts.length = 1 →
        ∀ n, getPartData rawParts desc ≠ Except.error (DecodeError.arity n)) := by
  constructor
  · intro h
    cases rawParts with
    | nil => rfl
    | cons a rest =>
      cases rest with
      | nil => exact absurd rfl h
      | cons b rest2 => rfl
  · intro h n
    cases rawParts with
    | nil => simp at h
    | cons a rest =>
      cases rest with
      | cons b rest2 => simp at h
      | nil =>
        simp only [getPartData]
        repeat' split
        all_goals simp

/-- Witness for C2: two parts fail with the arity error carrying the
count two; one part never raises an arity error. -/
theorem getPartData_arity_witness :
    getPartData ["a", "b"] { partID := "1", encoding := "BASE64", params := none }
      = Except.error (DecodeError.arity 2) ∧
    getPartData ["a"] { partID := "1", encoding := "BASE64", params := none }
      ≠ Except.error (DecodeError.arity 1) :=
  ⟨(getPartData_arity ["a", "b"] { partID := "1", encoding := "BASE64", params := none }).1
      (by decide),
   (getPartData_arity ["a"] { partID := "1", encoding := "BASE64", params := none }).2 rfl 1⟩

/-- C3: a declared encoding whose uppercase form is outside the supported
set fails with the unsupported-encoding error carrying the declared
encoding string; an encoding whose uppercase form is in the set never
raises that error. -/
theorem getPartData_unsupported (data : String) (desc : PartDescriptor) :
    (strToUpper desc.encoding ∉ supportedEncodings →
        getPartData [data] desc = Except.error (DecodeError.unsupported desc.encoding)) ∧
    (strToUpper desc.encoding ∈ supportedEncodings →
        ∀ e, getPartData [data] desc ≠ Except.error (DecodeError.unsupported e)) := by
  constructor
  · intro h
    simp only [supportedEncodings, List.mem_cons, List.not_mem_nil, or_false] at h
    push_neg at h
    obtain ⟨h1, h2, h3, h4, h5, h6⟩ := h
    simp [getPartData, h1, h2, h3, h4, h5, h6]
  · intro h e
    simp only [supportedEncodings, List.mem_cons, List.not_mem_nil, or_false] at h
    rcases h with h | h | h | h | h | h <;> simp [getPartData, h]
    split <;> simp

/-- Witness for C3: the encoding X-CUSTOM fails with the
unsupported-encoding error naming X-CUSTOM, and the lowercase spelling of
base64 raises no unsupported-encoding error. -/
theorem getPartData_unsupported_witness :
    getPartData ["x"] { partID := "1", encoding := "X-CUSTOM", params := none }
      = Except.error (DecodeError.unsupported "X-CUSTOM") ∧
    getPartData ["x"] { partID := "1", encoding := "base64", params := none }
      ≠ Except.error (DecodeError.unsupported "base64") :=
  ⟨(getPartData_unsupported "x" { partID := "1", encoding := "X-CUSTOM", params := none }).1
      (by decide),
   (getPartData_unsupported "x" { partID := "1", encoding := "base64", params := none }).2
      (by decide) "base64"⟩

/-- C4: under the UUENCODE encoding the decoder splits the raw body on
newlines, drops the first line and the final three lines, joins what
remains with the empty string and applies the uuencode payload decoding;
for a five-line body only the second line survives the trimming. -/
theorem getPartData_uuencode (data : String) (desc : PartDescriptor)
    (h : strToUpper desc.encoding = "UUENCODE") :
    getPartData [data] desc
      = Except.ok (PartData.text (uuDecode
          (String.join ((splitNewline data).tail.dropLast.dropLast.dropLast)))) ∧
    (splitNewline "l1\nl2\nl3\nl4\nl5").tail.dropLast.dropLast.dropLast = ["l2"] := by
  constructor
  · simp only [getPartData, h]
    rw [trimUu_eq_take]
    simp
  · rfl

/-- Witness for C4: a concrete five-line body decoded under the uuencode
branch keeps exactly the trimmed join. -/
theorem getPartData_uuencode_witness :
    getPartData ["a\nb\nc\nd\ne"] { partID := "2", encoding := "uuencode", params := none }
      = Except.ok (PartData.text (uuDecode (String.join
          ((splitNewline "a\nb\nc\nd\ne").tail.dropLast.dropLast.dropLast)))) :=
  (getPartData_uuencode "a\nb\nc\nd\ne"
      { partID := "2", encoding := "uuencode", params := none } (by decide)).1

/-- C5: under the QUOTED-PRINTABLE encoding, a present charset equal to
UTF-8 up to letter case yields the quoted-printable decode followed by
the UTF-8 reinterpretation, as text; otherwise the quoted-printable
decode is returned as text without that step; the byte escapes of
caf=C3=A9 reinterpret to the accented word. -/
theorem getPartData_qp (data : String) (desc : PartDescriptor)
    (h : strToUpper desc.encoding = "QUOTED-PRINTABLE") :
    (charsetIsUtf8 desc = true →
        getPartData [data] desc = Except.ok (PartData.text (utf8Decode (qpDecode data)))) ∧
    (charsetIsUtf8 desc = false →
        getPartData [data] desc = Except.ok (PartData.text (qpDecode data))) ∧
    utf8Decode (qpDecode "caf=C3=A9") = "café" := by
  refine ⟨fun hc => ?_, fun hc => ?_, rfl⟩
  · simp [getPartData, h, hc]
  · simp [getPartData, h, hc]

/-- Witness for C5: the concrete quoted-printable body with a UTF-8
charset decodes to the accented text. -/
theorem getPartData_qp_witness :
    getPartData ["caf=C3=A9"]
        { partID := "1", encoding := "quoted-printable", params := some { charset := some "UTF-8" } }
      = Except.ok (PartData.text "café") := by
  have t := getPartData_qp "caf=C3=A9"
      { partID := "1", encoding := "quoted-printable", params := some { charset := some "UTF-8" } }
      (by decide)
  rw [t.1 (by decide), t.2.2]

/-- C9: under the BASE64 encoding, for any letter case of the declared
encoding, the decoder returns the base64 decoding of the raw body as a
binary buffer, not text; the concrete body decodes to the bytes of the
greeting word. -/
theorem getPartData_base64 (data : String) (desc : PartDescriptor)
    (h : strToUpper desc.encoding = "BASE64") :
    getPartData [data] desc = Except.ok (PartData.buf (base64Decode data)) ∧
    base64Decode "aGVsbG8=" = [104, 101, 108, 108, 111] ∧
    utf8DecodeBytes [104, 101, 108, 108, 111] = "hello" := by
  refine ⟨?_, rfl, rfl⟩
  simp [getPartData, h]

/-- Witness for C9: the concrete base64 body with a mixed-case declared
encoding decodes to the byte buffer of the greeting word. -/
theorem getPartData_base64_witness :
    getPartData ["aGVsbG8="] { partID := "1", encoding := "Base64", params := none }
      = Except.ok (PartData.buf [104, 101, 108, 108, 111]) := by
  have t := getPartData_base64 "aGVsbG8="
      { partID := "1", encoding := "Base64", params := none } (by decide)
  rw [t.1, t.2.1]

/-! ## Theorems: message assembler -/

/-- C1: evaluation of the legacy assembler at two consecutive header
parts. The shared header regex keeps its lastIndex between tests, so the
test on the second part starts at a nonzero offset, cannot match the
anchored pattern, and the second part whose which value is header-class
keeps its raw accumulated string instead of the structured mapping. -/
theorem getMessageLegacy_second_header_raw :
    (getMessageLegacyRun (fun _ => ([] : HeaderMap))
        [MsgEvent.body "HEADER" 4 "A: x", MsgEvent.body "HEADER" 4 "B: y",
         MsgEvent.attributes (0 : Nat), MsgEvent.ended]).resolvedMsg
      = some { attributes := some 0,
               parts := [{ which := "HEADER", size := 4, body := PartBody.header [] },
                         { which := "HEADER", size := 4, body := PartBody.raw "B: y" }] } ∧
    isHeaderWhich "HEADER" = true :=
  ⟨rfl, rfl⟩

/-- A body event never changes the resolution field. -/
theorem getMessageStep_body_resolvedMsg {α : Type} (ph : String → HeaderMap)
    (s : AsmState α) (w : String) (sz : Nat) (c : String) :
    (getMessageStep ph s (MsgEvent.body w sz c)).resolvedMsg = s.resolvedMsg := by
  simp only [getMessageStep]
  split <;> rfl

/-- An attributes event never changes the resolution field. -/
theorem getMessageStep_attr_resolvedMsg {α : Type} (ph : String → HeaderMap)
    (s : AsmState α) (a : α) :
    (getMessageStep ph s (MsgEvent.attributes a)).resolvedMsg = s.resolvedMsg := by
  simp only [getMessageStep]
  split <;> rfl

/-- Every step preserves the tie between the consumed end listener and
resolution. -/
theorem endPending_step {α : Type} (ph : String → HeaderMap) (s : AsmState α)
    (e : MsgEvent α) (hs : endPending s) : endPending (getMessageStep ph s e) := by
  cases e <;> simp only [getMessageStep, endPending] at hs ⊢ <;> split <;> simp_all

/-- Folding the assembler from a state respecting endPending resolves
exactly when the state already resolved or an end event occurs. -/
theorem foldl_resolves_iff {α : Type} (ph : String → HeaderMap) :
    ∀ (evs : List (MsgEvent α)) (s : AsmState α), endPending s →
      (((evs.foldl (getMessageStep ph) s).resolvedMsg.isSome = true) ↔
        (s.resolvedMsg.isSome = true ∨ MsgEvent.ended ∈ evs))
  | [], s, hs => by simp
  | e :: rest, s, hs => by
      rw [List.foldl_cons,
          foldl_resolves_iff ph rest (getMessageStep ph s e) (endPending_step ph s e hs)]
      cases e with
      | body w sz c => simp [getMessageStep_body_resolvedMsg]
      | attributes a => simp [getMessageStep_attr_resolvedMsg]
      | ended =>
          by_cases he : s.endOn = true
          · simp [getMessageStep, he]
          · have hres := hs (by simpa using he)
            simp [getMessageStep, he, hres]

/-- C7: the assembler resolves exactly when an end event fires; for every
event sequence without an end event the deferred result never completes.
The embedded state carries no rejection outcome because the source
promise executor never rejects. -/
theorem getMessageRun_resolves_iff_end {α : Type} (ph : String → HeaderMap)
    (evs : List (MsgEvent α)) :
    ((getMessageRun ph evs).resolvedMsg.isSome = true) ↔ MsgEvent.ended ∈ evs := by
  have h := foldl_resolves_iff ph evs (initState (α := α))
      (by intro hh; simp [initState] at hh)
  simpa [getMessageRun, initState] using h

/-- Every step preserves the tie between resolution and removed
listeners. -/
theorem listenersOff_step {α : Type} (ph : String → HeaderMap) (s : AsmState α)
    (e : MsgEvent α) (hs : listenersOff s) : listenersOff (getMessageStep ph s e) := by
  cases e <;> simp only [getMessageStep, listenersOff] at hs ⊢ <;> split <;> simp_all

/-- Every reachable assembler state ties resolution to removed
listeners. -/
theorem listenersOff_run {α : Type} (ph : String → HeaderMap) (evs : List (MsgEvent α)) :
    listenersOff (getMessageRun ph evs) := by
  suffices h : ∀ (l : List (MsgEvent α)) (s : AsmState α), listenersOff s →
      listenersOff (l.foldl (getMessageStep ph) s) by
    exact h evs initState (by intro hh; simp [initState, listenersOff] at hh)
  intro l
  induction l with
  | nil => exact fun s hs => hs
  | cons e rest ih => exact fun s hs => ih _ (listenersOff_step ph s e hs)

/-- A resolved state with removed listeners absorbs every event. -/
theorem getMessageStep_stuck {α : Type} (ph : String → HeaderMap) (s : AsmState α)
    (hoff : listenersOff s) (hres : s.resolvedMsg.isSome = true) (e : MsgEvent α) :
    getMessageStep ph s e = s := by
  obtain ⟨hb, ha, he⟩ := hoff hres
  cases e <;> simp [getMessageStep, hb, ha, he]

/-- C6: once the assembler has resolved, every later body, attributes or
end event is ignored: the whole state, hence the resolved parts sequence
and attributes, stays unchanged under any further events. -/
theorem getMessageRun_stuck_after_end {α : Type} (ph : String → HeaderMap)
    (evs more : List (MsgEvent α)) (m : MessageRec α)
    (h : (getMessageRun ph evs).resolvedMsg = some m) :
    getMessageRun ph (evs ++ more) = getMessageRun ph evs := by
  have hres : (getMessageRun ph evs).resolvedMsg.isSome = true := by rw [h]; rfl
  have hoff := listenersOff_run ph evs
  show List.foldl (getMessageStep ph) initState (evs ++ more) = getMessageRun ph evs
  rw [List.foldl_append]
  show List.foldl (getMessageStep ph) (getMessageRun ph evs) more = getMessageRun ph evs
  induction more with
  | nil => rfl
  | cons e rest ih =>
      rw [List.foldl_cons, getMessageStep_stuck ph _ hoff hres e]
      exact ih

/-- Witness for C6: a body and an attributes event delivered after the
end event leave the run unchanged. -/
theorem getMessageRun_stuck_after_end_witness :
    getMessageRun (fun _ => ([] : HeaderMap))
        ([MsgEvent.ended] ++ [MsgEvent.body "TEXT" 1 "x", MsgEvent.attributes (5 : Nat)])
      = getMessageRun (fun _ => ([] : HeaderMap)) [MsgEvent.ended] :=
  getMessageRun_stuck_after_end (fun _ => ([] : HeaderMap)) [MsgEvent.ended]
    [MsgEvent.body "TEXT" 1 "x", MsgEvent.attributes (5 : Nat)]
    { attributes := none, parts := [] } rfl

/-- C8: a sequence of one attributes event and the terminal end event,
with no body events, resolves to the message with an empty parts
sequence and exactly the attributes payload. -/
theorem getMessageRun_no_body {α : Type} (ph : String → HeaderMap) (a : α) :
    (getMessageRun ph [MsgEvent.attributes a, MsgEvent.ended]).resolvedMsg
      = some { attributes := some a, parts := [] } := rfl

/-- The current assembler of helpers/getMessage.ts satisfies the header
invariant unconditionally: every part whose which value is header-class
stores the structured mapping, for every event sequence. Its regex
literal is re-created at each test, so no lastIndex state survives
between parts. -/
theorem getMessageRun_headers_parsed {α : Type} (ph : String → HeaderMap)
    (evs : List (MsgEvent α)) :
    ∀ p ∈ (getMessageRun ph evs).parts, isHeaderWhich p.which = true →
      ∃ fields, p.body = PartBody.header fields := by
  suffices h : ∀ (l : List (MsgEvent α)) (s : AsmState α),
      (∀ p ∈ s.parts, isHeaderWhich p.which = true →
        ∃ fields, p.body = PartBody.header fields) →
      ∀ p ∈ (l.foldl (getMessageStep ph) s).parts, isHeaderWhich p.which = true →
        ∃ fields, p.body = PartBody.header fields by
    exact h evs initState (by intro p hp; simp [initState] at hp)
  intro l
  induction l with
  | nil => exact fun s hs => hs
  | cons e rest ih =>
      intro s hs
      refine ih _ ?_
      cases e with
      | body w sz c =>
          simp only [getMessageStep]
          split
          · intro p hp hw
            rcases List.mem_append.mp hp with hmem | hmem
            · exact hs p hmem hw
            · rw [List.mem_singleton] at hmem
              subst hmem
              simp only at hw
              exact ⟨ph c, by simp [hw]⟩
          · exact hs
      | attributes a =>
          simp only [getMessageStep]
          split <;> exact hs
      | ended =>
          simp only [getMessageStep]
          split <;> exact hs

/-! ## Theorems: structure tree flattening -/

/-- The accumulator-passing walk of getParts appends the depth-first
flattening to whatever was accumulated so far. -/
theorem getParts_append_flatten :
    ∀ (struct : List StructItem) (acc : List StructItem),
      getParts struct acc = acc ++ flattenDFS struct
  | [], acc => by simp [getParts, flattenDFS]
  | StructItem.branch children :: rest, acc => by
      rw [getParts, flattenDFS, getParts_append_flatten children acc,
          getParts_append_flatten rest (acc ++ flattenDFS children), List.append_assoc]
  | StructItem.leaf pid tag :: rest, acc => by
      rw [getParts, flattenDFS, getParts_append_flatten rest _]
      split <;> simp

/-- C10: getParts on a structure tree with an empty accumulator is the
depth-first left-to-right flattening keeping exactly the non-array nodes
with a truthy partID, in traversal order, each exactly once. -/
theorem getParts_flattens (struct : List StructItem) :
    getParts struct [] = flattenDFS struct := by
  simpa using getParts_append_flatten struct []
